import Mathlib

/-!
Verification of the azalea block-state compiler
(`src/azalea-block/azalea-block-macros/src/lib.rs`, `make_block_states`).

The proc macro turns a list of property-domain declarations and block
definitions into: one Rust struct per block, an encoder `as_block_state`
(a match whose arms assign consecutive state ids to the field-value
combinations of each block, enumerated by `combinations_of`), a decoder
`From<BlockState> for Box<dyn Block>` (a match on consecutive id ranges
that recovers each field by `(b / division) % variant_count`), a default
state id per block (found by scanning the combinations), and registry
bridge `From<azalea_registry::Block>` impls.

We embed the generated artifacts over ordinals: a property variant is
represented by its declaration index (the discriminant the macro assigns
in `property_enum_variants`), so a block instance is the list of its
fields' ordinals in declared field order, and a compiled block is its
list of field-domain sizes together with the list of default ordinals.
-/

namespace Azalea

/-- Cartesian product of a list of domains, the last domain varying
fastest; `cartesian [] = [[]]`. Helper for `combinations_of`. -/
def cartesian {α : Type} : List (List α) → List (List α)
  | [] => [[]]
  | d :: rest => d.flatMap (fun v => (cartesian rest).map (fun c => v :: c))

/-- Modelled from the spec: `combinations_of` lives in
`azalea-block-macros/src/utils.rs`, which is not under `src/`. Section 4.5
of the spec fixes the enumeration order — mixed-radix with the
last-declared field least significant, i.e. the cartesian product in
which the last domain varies fastest — and `make_block_states` gives a
field-less block its single state in a separate branch, so on an empty
domain list `combinations_of` contributes no combinations. -/
def combinations_of {α : Type} (doms : List (List α)) : List (List α) :=
  if doms.isEmpty then [] else cartesian doms

/-- Decoder arithmetic of `from_state_to_block_inner` (lib.rs 488-513):
field `i` of a block with domain sizes `sizes` is recovered from the
block-local id `b` as `(b / division) % variant_count`, where `division`
is the product of the domain sizes of the fields declared after `i`
(the loop walks the fields in reverse declared order, multiplying
`division` by each variant count). -/
def decodeOrds : List Nat → Nat → List Nat
  | [], _ => []
  | s :: sizes, b => (b / sizes.prod) % s :: decodeOrds sizes b

/-- Mixed-radix rank of an instance: the position of its field-ordinal
combination in `combinations_of`s enumeration order (proved as
`cartesian_eq_range_decode` and `as_block_state_eq`), equal to the spec
4.5 sum of ordinal times weight (proved as `encodeOrds_eq_weighted_sum`). -/
def encodeOrds : List Nat → List Nat → Nat
  | _ :: sizes, o :: ords => o * sizes.prod + encodeOrds sizes ords
  | _, _ => 0

/-- Positional weight of field `i`: the product of the domain sizes of
all fields declared after it (spec 4.5; the `division` reached for field
`i` by the reverse loop of `from_state_to_block_inner`). -/
def fieldWeight (sizes : List Nat) (i : Nat) : Nat := (sizes.drop (i + 1)).prod

/-- An instance is valid (reachable) when it has one ordinal per field
and every ordinal is below its field's domain size. -/
def validOrdsB : List Nat → List Nat → Bool
  | [], [] => true
  | s :: sizes, o :: ords => decide (o < s) && validOrdsB sizes ords
  | _, _ => false

theorem prod_pos_of (sizes : List Nat) (h : ∀ s ∈ sizes, 0 < s) : 0 < sizes.prod := by
  induction sizes with
  | nil => simp
  | cons s ss ih =>
    rw [List.prod_cons]
    exact Nat.mul_pos (h s (by simp)) (ih (fun x hx => h x (by simp [hx])))

theorem encodeOrds_lt : ∀ (sizes ords : List Nat), validOrdsB sizes ords = true →
    encodeOrds sizes ords < sizes.prod
  | [], [], _ => by simp [encodeOrds]
  | [], _ :: _, h => by simp [validOrdsB] at h
  | _ :: _, [], h => by simp [validOrdsB] at h
  | s :: ss, o :: os, h => by
    simp only [validOrdsB, Bool.and_eq_true, decide_eq_true_eq] at h
    obtain ⟨h1, h2⟩ := h
    have hlt := encodeOrds_lt ss os h2
    simp only [encodeOrds, List.prod_cons]
    calc o * ss.prod + encodeOrds ss os < o * ss.prod + ss.prod := by omega
      _ = (o + 1) * ss.prod := by ring
      _ ≤ s * ss.prod := mul_le_mul_right' (by omega) ss.prod

theorem decodeOrds_valid (sizes : List Nat) (n : Nat) (h : ∀ s ∈ sizes, 0 < s) :
    validOrdsB sizes (decodeOrds sizes n) = true := by
  induction sizes with
  | nil => simp [decodeOrds, validOrdsB]
  | cons s ss ih =>
    simp only [decodeOrds, validOrdsB, Bool.and_eq_true, decide_eq_true_eq]
    exact ⟨Nat.mod_lt _ (h s (by simp)), ih (fun x hx => h x (by simp [hx]))⟩

theorem decodeOrds_length (sizes : List Nat) (n : Nat) :
    (decodeOrds sizes n).length = sizes.length := by
  induction sizes with
  | nil => rfl
  | cons s ss ih => simp [decodeOrds, ih]

theorem decodeOrds_add_mul_prod : ∀ (sizes : List Nat), (∀ s ∈ sizes, 0 < s) → ∀ e m,
    decodeOrds sizes (e + m * sizes.prod) = decodeOrds sizes e
  | [], _, e, m => rfl
  | s :: ss, h, e, m => by
    have hss : ∀ x ∈ ss, 0 < x := fun x hx => h x (by simp [hx])
    have hP : 0 < ss.prod := prod_pos_of ss hss
    simp only [decodeOrds, List.prod_cons]
    rw [show e + m * (s * ss.prod) = e + m * s * ss.prod from by ring,
      Nat.add_mul_div_right _ _ hP, Nat.add_mul_mod_self_right]
    rw [show e + m * s * ss.prod = e + (m * s) * ss.prod from by ring,
      decodeOrds_add_mul_prod ss hss e (m * s)]

theorem decode_encode : ∀ (sizes ords : List Nat), (∀ s ∈ sizes, 0 < s) →
    validOrdsB sizes ords = true → decodeOrds sizes (encodeOrds sizes ords) = ords
  | [], [], _, _ => rfl
  | [], _ :: _, _, hv => by simp [validOrdsB] at hv
  | _ :: _, [], _, hv => by simp [validOrdsB] at hv
  | s :: ss, o :: os, h, hv => by
    have hss : ∀ x ∈ ss, 0 < x := fun x hx => h x (by simp [hx])
    have hP : 0 < ss.prod := prod_pos_of ss hss
    simp only [validOrdsB, Bool.and_eq_true, decide_eq_true_eq] at hv
    obtain ⟨ho, hos⟩ := hv
    have helt : encodeOrds ss os < ss.prod := encodeOrds_lt ss os hos
    simp only [decodeOrds, encodeOrds, List.prod_cons]
    rw [show o * ss.prod + encodeOrds ss os = encodeOrds ss os + o * ss.prod from by ring]
    rw [Nat.add_mul_div_right _ _ hP, Nat.div_eq_of_lt helt, Nat.zero_add,
      Nat.mod_eq_of_lt ho, decodeOrds_add_mul_prod ss hss _ o,
      decode_encode ss os hss hos]

theorem encode_decode : ∀ (sizes : List Nat) (n : Nat), (∀ s ∈ sizes, 0 < s) →
    n < sizes.prod → encodeOrds sizes (decodeOrds sizes n) = n
  | [], n, _, hn => by
    have hn0 : n = 0 := by simpa using Nat.lt_one_iff.mp (by simpa using hn)
    simp [decodeOrds, encodeOrds, hn0]
  | s :: ss, n, h, hn => by
    have hss : ∀ x ∈ ss, 0 < x := fun x hx => h x (by simp [hx])
    have hP : 0 < ss.prod := prod_pos_of ss hss
    simp only [decodeOrds, encodeOrds]
    have hmod : decodeOrds ss n = decodeOrds ss (n % ss.prod) := by
      conv_lhs =>
        rw [show n = n % ss.prod + n / ss.prod * ss.prod from (Nat.mod_add_div' n ss.prod).symm]
      exact decodeOrds_add_mul_prod ss hss _ _
    rw [hmod, encode_decode ss (n % ss.prod) hss (Nat.mod_lt _ hP)]
    have hdiv : n / ss.prod < s := by
      rw [Nat.div_lt_iff_lt_mul hP]
      rw [List.prod_cons] at hn
      exact hn
    rw [Nat.mod_eq_of_lt hdiv]
    exact Nat.div_add_mod' n ss.prod

theorem decodeOrds_getD : ∀ (sizes : List Nat) (n i : Nat), i < sizes.length →
    (decodeOrds sizes n).getD i 0 = (n / fieldWeight sizes i) % sizes.getD i 0
  | [], _, i, hi => by simp at hi
  | s :: ss, n, 0, _ => rfl
  | s :: ss, n, i + 1, hi => by
    have hi2 : i < ss.length := by simpa using hi
    simpa [decodeOrds, fieldWeight] using decodeOrds_getD ss n i hi2

theorem encodeOrds_eq_weighted_sum : ∀ (sizes ords : List Nat),
    encodeOrds sizes ords
      = ((List.range sizes.length).map (fun i => ords.getD i 0 * fieldWeight sizes i)).sum
  | [], ords => by cases ords <;> rfl
  | s :: ss, [] => by
    simp [encodeOrds]
  | s :: ss, o :: os => by
    rw [show (s :: ss).length = ss.length + 1 from rfl, List.range_succ_eq_map]
    simp only [List.map_cons, List.map_map, List.sum_cons]
    have hmain : encodeOrds (s :: ss) (o :: os) = o * ss.prod + encodeOrds ss os := rfl
    rw [hmain, encodeOrds_eq_weighted_sum ss os]
    have hw0 : (o :: os).getD 0 0 * fieldWeight (s :: ss) 0 = o * ss.prod := by
      simp [fieldWeight]
    rw [hw0]
    congr 1

theorem range_mul_flatMap : ∀ (s P : Nat),
    List.range (s * P) = (List.range s).flatMap (fun o => (List.range P).map (fun r => o * P + r))
  | 0, P => by simp
  | s + 1, P => by
    rw [show (s + 1) * P = s * P + P from by ring, List.range_add, range_mul_flatMap s P,
      List.range_succ, List.flatMap_append]
    congr 1
    simp

theorem cartesian_eq_range_decode : ∀ (sizes : List Nat), (∀ s ∈ sizes, 0 < s) →
    cartesian (sizes.map List.range) = (List.range sizes.prod).map (decodeOrds sizes)
  | [], _ => rfl
  | s :: ss, h => by
    have hss : ∀ x ∈ ss, 0 < x := fun x hx => h x (by simp [hx])
    have hs : 0 < s := h s (by simp)
    have hP : 0 < ss.prod := prod_pos_of ss hss
    simp only [List.map_cons, cartesian, cartesian_eq_range_decode ss hss, List.prod_cons]
    rw [range_mul_flatMap s ss.prod, List.map_flatMap]
    apply List.flatMap_congr
    intro o ho
    have ho2 : o < s := List.mem_range.mp ho
    rw [List.map_map, List.map_map]
    apply List.map_congr_left
    intro r hr
    have hr2 : r < ss.prod := List.mem_range.mp hr
    simp only [Function.comp]
    have hhead : (o * ss.prod + r) / ss.prod % s = o := by
      rw [show o * ss.prod + r = r + o * ss.prod from by ring,
        Nat.add_mul_div_right _ _ hP, Nat.div_eq_of_lt hr2, Nat.zero_add, Nat.mod_eq_of_lt ho2]
    have htail : decodeOrds ss (o * ss.prod + r) = decodeOrds ss r := by
      rw [show o * ss.prod + r = r + o * ss.prod from by ring, decodeOrds_add_mul_prod ss hss r o]
    simp [decodeOrds, List.prod_cons, hhead, htail]

/-- First index in a list satisfying a predicate: the arm a Rust `match`
selects when its patterns are tried top to bottom. -/
def firstMatch {α : Type} (p : α → Bool) : List α → Option Nat
  | [] => none
  | x :: xs => if p x then some 0 else (firstMatch p xs).map (fun k => k + 1)

theorem firstMatch_at : ∀ {α : Type} (p : α → Bool) (l : List α) (k : Nat) (hk : k < l.length),
    p (l.get ⟨k, hk⟩) = true → (∀ j (hj : j < l.length), j < k → p (l.get ⟨j, hj⟩) = false) →
    firstMatch p l = some k
  | _, p, x :: xs, 0, _, hpk, _ => by
    have hx : p x = true := hpk
    simp [firstMatch, hx]
  | _, p, x :: xs, k + 1, hk, hpk, hprev => by
    have hx : p x = false := hprev 0 (by simp) (by omega)
    have hk2 : k < xs.length := by simpa using hk
    have ih := firstMatch_at p xs k hk2 hpk
      (fun j hj hjk => hprev (j + 1) (by simpa using hj) (by omega))
    simp only [firstMatch, hx, Bool.false_eq_true, if_false, ih]
    rfl

/-- Generated encoder `as_block_state` (lib.rs 425-473, 547-573): for a
field-less block it is the constant `BlockState { id: first }`; otherwise
it is a match whose arm for the combination at position `k` of
`combinations_of` (over the block's domains, each domain listed by
ordinal) produces `BlockState { id: first + k }` — the macro emits the
arms while the running `state_id` counts up from `first_state_id`. An
instance matching no arm (impossible for reachable instances) is `none`. -/
def as_block_state (sizes : List Nat) (first : Nat) (ords : List Nat) : Option Nat :=
  if sizes.isEmpty then some first
  else (firstMatch (fun c => c == ords) (combinations_of (sizes.map List.range))).map
    (fun k => first + k)

theorem as_block_state_eq (sizes : List Nat) (first : Nat) (ords : List Nat)
    (hpos : ∀ s ∈ sizes, 0 < s) (hv : validOrdsB sizes ords = true) :
    as_block_state sizes first ords = some (first + encodeOrds sizes ords) := by
  match sizes, ords with
  | [], [] => rfl
  | [], _ :: _ => simp [validOrdsB] at hv
  | s :: ss, ords =>
    have hP : 0 < (s :: ss).prod := prod_pos_of _ hpos
    have hemp : ((s :: ss).map List.range).isEmpty = false := rfl
    have hcomb : combinations_of ((s :: ss).map List.range)
        = (List.range (s :: ss).prod).map (decodeOrds (s :: ss)) := by
      rw [combinations_of, hemp]
      exact cartesian_eq_range_decode (s :: ss) hpos
    have hk : encodeOrds (s :: ss) ords < (s :: ss).prod := encodeOrds_lt _ _ hv
    have hk2 : encodeOrds (s :: ss) ords
        < ((List.range (s :: ss).prod).map (decodeOrds (s :: ss))).length := by
      simpa using hk
    have hfm : firstMatch (fun c => c == ords)
        ((List.range (s :: ss).prod).map (decodeOrds (s :: ss)))
        = some (encodeOrds (s :: ss) ords) := by
      apply firstMatch_at _ _ _ hk2
      · have hget : ((List.range (s :: ss).prod).map (decodeOrds (s :: ss))).get
            ⟨encodeOrds (s :: ss) ords, hk2⟩ = decodeOrds (s :: ss) (encodeOrds (s :: ss) ords) := by
          simp
        rw [hget, decode_encode _ _ hpos hv]
        exact beq_self_eq_true ords
      · intro j hj hjk
        have hj2 : j < (s :: ss).prod := by simpa using hj
        have hget : ((List.range (s :: ss).prod).map (decodeOrds (s :: ss))).get
            ⟨j, hj⟩ = decodeOrds (s :: ss) j := by
          simp
        rw [hget]
        apply beq_eq_false_iff_ne.mpr
        intro heq
        have : j = encodeOrds (s :: ss) ords := by
          rw [← encode_decode (s :: ss) j hpos hj2, heq]
        omega
    rw [as_block_state, if_neg (by simp), hcomb, hfm]
    rfl

/-- One compiled block: its identifying name (`block_name_pascal_case`),
the domain sizes of its fields in declared order, and the declared
default ordinal of each field (for a `bool` field the macro's variant
list is `["true", "false"]`, so `true` has ordinal 0 and `false` 1). -/
structure BlockSpec where
  name : String
  sizes : List Nat
  defaults : List Nat
deriving DecidableEq

/-- Block at position `i` of the declaration list. -/
def getB (blocks : List BlockSpec) (i : Nat) : BlockSpec :=
  blocks.getD i ⟨"", [], []⟩

/-- Number of state ids the running `state_id` counter advances for one
block: 1 by the dedicated branch when the block has no properties,
otherwise one per combination produced by `combinations_of`. -/
def blockStatesCount (sizes : List Nat) : Nat :=
  if sizes.isEmpty then 1 else (combinations_of (sizes.map List.range)).length

/-- First state id of block `i`: the counter value after the blocks
declared before it (`first_state_id` in `make_block_states`). -/
def firstId (blocks : List BlockSpec) (i : Nat) : Nat :=
  ((blocks.take i).map (fun b => blockStatesCount b.sizes)).sum

/-- Last state id of block `i` (`last_state_id = state_id - 1`). -/
def lastId (blocks : List BlockSpec) (i : Nat) : Nat :=
  firstId blocks i + blockStatesCount (getB blocks i).sizes - 1

/-- Final value of the `state_id` counter after all blocks. -/
def totalStates (blocks : List BlockSpec) : Nat :=
  (blocks.map (fun b => blockStatesCount b.sizes)).sum

/-- Generated `BlockState::max_state` (lib.rs 593-601): the final counter
value minus one. -/
def maxState (blocks : List BlockSpec) : Nat := totalStates blocks - 1

/-- Generated decoder `From<BlockState> for Box<dyn Block>`
(lib.rs 480-523, 616-623): one match arm `first..=last` per block in
declaration order, whose body subtracts `first` and recovers every field
by the `(b / division) % variant_count` arithmetic of `decodeOrds`; an
id matching no arm reaches the `panic!("Invalid block state")` arm,
modelled as `none`. The result pairs the index of the owning block with
the decoded field ordinals. -/
def decodeStateFrom : List BlockSpec → Nat → Nat → Nat → Option (Nat × List Nat)
  | [], _, _, _ => none
  | b :: bs, idx, first, id =>
    if first ≤ id ∧ id ≤ first + blockStatesCount b.sizes - 1 then
      some (idx, decodeOrds b.sizes (id - first))
    else
      decodeStateFrom bs (idx + 1) (first + blockStatesCount b.sizes) id

def decodeState (blocks : List BlockSpec) (id : Nat) : Option (Nat × List Nat) :=
  decodeStateFrom blocks 0 0 id

/-- Global encoder: the `as_block_state` of the block declared at
position `i`, whose arms start at that block's first state id. -/
def encodeState (blocks : List BlockSpec) (i : Nat) (ords : List Nat) : Option Nat :=
  as_block_state (getB blocks i).sizes (firstId blocks i) ords

/-- Default-state scan of `make_block_states` (lib.rs 425-478): walk the
combinations with the running `state_id`, overwriting `default_state_id`
whenever a combination equals the declared defaults; `none` at the end
is the `panic!` of the `let Some(default_state_id) = ... else` branch. -/
def scanDefault (defaults : List Nat) : List (List Nat) → Nat → Option Nat → Option Nat
  | [], _, acc => acc
  | c :: cs, state_id, acc =>
    scanDefault defaults cs (state_id + 1) (if c = defaults then some state_id else acc)

def defaultStateId (sizes defaults : List Nat) (first : Nat) : Option Nat :=
  if sizes.isEmpty then some first
  else scanDefault defaults (combinations_of (sizes.map List.range)) first none

/-- Default-state computation together with the fatal diagnostic the
macro emits when no combination matches the declared defaults
(the `panic!("Couldn't get default state id for {name}, ...")`). -/
def defaultStateIdE (blockName : String) (sizes defaults : List Nat) (first : Nat) :
    Except String Nat :=
  match defaultStateId sizes defaults first with
  | some id => Except.ok id
  | none => Except.error ("Couldn\x27t get default state id for " ++ blockName
      ++ ", combinations=" ++ toString (sizes.map List.range)
      ++ ", defaults=" ++ toString defaults)

/-- Conversion the macro generates for a `bool` field
(lib.rs 499-507): `(b / division) % 2 == 0`, so ordinal 0 is `true`. -/
def decodeBool (division b : Nat) : Bool := (b / division) % 2 == 0

/-- Variant list the macro records for the builtin boolean domain
(lib.rs 300): `["true", "false"]` — `true` first. -/
def boolVariants : List String := ["true", "false"]

/-- Ordinal of a boolean variant: its position in `boolVariants`. -/
def boolOrdinal (v : Bool) : Nat := if v then 0 else 1

/-- Generated `From<u32>` for an enumerated property (lib.rs 286-293):
match arms `0 => V0, 1 => V1, ...` for the `variantCount` declared
variants, and a catch-all `panic!("Invalid property value")` arm,
modelled as `none`. -/
def enumFromU32 (variantCount value : Nat) : Option Nat :=
  if value < variantCount then some value else none

theorem blockStatesCount_eq_prod (sizes : List Nat) (hpos : ∀ s ∈ sizes, 0 < s) :
    blockStatesCount sizes = sizes.prod := by
  match sizes with
  | [] => rfl
  | s :: ss =>
    rw [blockStatesCount, if_neg (by simp), combinations_of, if_neg (by simp),
      cartesian_eq_range_decode (s :: ss) hpos]
    simp

theorem blockStatesCount_pos (sizes : List Nat) (hpos : ∀ s ∈ sizes, 0 < s) :
    0 < blockStatesCount sizes := by
  rw [blockStatesCount_eq_prod sizes hpos]
  exact prod_pos_of sizes hpos

theorem getB_mem (blocks : List BlockSpec) (i : Nat) (hi : i < blocks.length) :
    getB blocks i ∈ blocks := by
  rw [getB, List.getD_eq_getElem?_getD, List.getElem?_eq_getElem hi]
  exact List.getElem_mem hi

theorem firstId_zero (blocks : List BlockSpec) : firstId blocks 0 = 0 := rfl

theorem firstId_succ (blocks : List BlockSpec) (i : Nat) (hi : i < blocks.length) :
    firstId blocks (i + 1) = firstId blocks i + blockStatesCount (getB blocks i).sizes := by
  have hsplit : blocks.take (i + 1) = blocks.take i ++ [getB blocks i] := by
    rw [List.take_succ, List.getElem?_eq_getElem hi]
    simp [getB, List.getD_eq_getElem?_getD, List.getElem?_eq_getElem hi]
  rw [firstId, firstId, hsplit, List.map_append, List.sum_append]
  simp

theorem firstId_cons (b : BlockSpec) (bs : List BlockSpec) (i : Nat) :
    firstId (b :: bs) (i + 1) = blockStatesCount b.sizes + firstId bs i := by
  rw [firstId, firstId]
  simp

theorem firstId_le_total (blocks : List BlockSpec) (i : Nat) :
    firstId blocks i ≤ totalStates blocks := by
  rw [firstId, totalStates]
  conv_rhs => rw [show blocks = blocks.take i ++ blocks.drop i from
    (List.take_append_drop i blocks).symm]
  rw [List.map_append, List.sum_append]
  omega

theorem totalStates_cons (b : BlockSpec) (bs : List BlockSpec) :
    totalStates (b :: bs) = blockStatesCount b.sizes + totalStates bs := by
  simp [totalStates]

theorem totalStates_pos (blocks : List BlockSpec) (hne : blocks ≠ [])
    (hpos : ∀ b ∈ blocks, ∀ s ∈ b.sizes, 0 < s) : 0 < totalStates blocks := by
  match blocks with
  | [] => exact absurd rfl hne
  | b :: bs =>
    rw [totalStates_cons]
    have := blockStatesCount_pos b.sizes (hpos b (by simp))
    omega

theorem getB_cons_succ (b : BlockSpec) (bs : List BlockSpec) (i : Nat) :
    getB (b :: bs) (i + 1) = getB bs i := rfl

theorem decodeStateFrom_at : ∀ (blocks : List BlockSpec) (idx first i k : Nat),
    (∀ b ∈ blocks, ∀ s ∈ b.sizes, 0 < s) → i < blocks.length →
    k < blockStatesCount (getB blocks i).sizes →
    decodeStateFrom blocks idx first (first + firstId blocks i + k)
      = some (idx + i, decodeOrds (getB blocks i).sizes k)
  | [], _, _, i, _, _, hi, _ => by simp at hi
  | b :: bs, idx, first, 0, k, hpos, _, hk => by
    have hcnt : 0 < blockStatesCount b.sizes :=
      blockStatesCount_pos b.sizes (hpos b (by simp))
    have hgb : getB (b :: bs) 0 = b := rfl
    rw [hgb] at hk
    rw [firstId_zero]
    rw [decodeStateFrom, if_pos (by constructor <;> omega)]
    simp [getB]
  | b :: bs, idx, first, i + 1, k, hpos, hi, hk => by
    have hbs : ∀ x ∈ bs, ∀ s ∈ x.sizes, 0 < s := fun x hx => hpos x (by simp [hx])
    have hcnt : 0 < blockStatesCount b.sizes :=
      blockStatesCount_pos b.sizes (hpos b (by simp))
    have hi2 : i < bs.length := by simpa using hi
    rw [getB_cons_succ] at hk
    rw [firstId_cons, getB_cons_succ]
    rw [decodeStateFrom, if_neg (by omega)]
    have ih := decodeStateFrom_at bs (idx + 1) (first + blockStatesCount b.sizes) i k hbs hi2 hk
    rw [show first + (blockStatesCount b.sizes + firstId bs i) + k
        = first + blockStatesCount b.sizes + firstId bs i + k from by omega, ih,
      show idx + 1 + i = idx + (i + 1) from by omega]

theorem decodeStateFrom_none : ∀ (blocks : List BlockSpec) (idx first id : Nat),
    (∀ b ∈ blocks, ∀ s ∈ b.sizes, 0 < s) → first + totalStates blocks ≤ id →
    decodeStateFrom blocks idx first id = none
  | [], _, _, _, _, _ => rfl
  | b :: bs, idx, first, id, hpos, hid => by
    have hbs : ∀ x ∈ bs, ∀ s ∈ x.sizes, 0 < s := fun x hx => hpos x (by simp [hx])
    have hcnt : 0 < blockStatesCount b.sizes :=
      blockStatesCount_pos b.sizes (hpos b (by simp))
    rw [totalStates_cons] at hid
    rw [decodeStateFrom, if_neg (by omega)]
    exact decodeStateFrom_none bs (idx + 1) (first + blockStatesCount b.sizes) id hbs (by omega)

theorem exists_owning_block : ∀ (blocks : List BlockSpec) (id : Nat),
    (∀ b ∈ blocks, ∀ s ∈ b.sizes, 0 < s) → id < totalStates blocks →
    ∃ i k, i < blocks.length ∧ k < blockStatesCount (getB blocks i).sizes
      ∧ id = firstId blocks i + k
  | [], id, _, hid => by simp [totalStates] at hid
  | b :: bs, id, hpos, hid => by
    have hbs : ∀ x ∈ bs, ∀ s ∈ x.sizes, 0 < s := fun x hx => hpos x (by simp [hx])
    rw [totalStates_cons] at hid
    by_cases hlt : id < blockStatesCount b.sizes
    · exact ⟨0, id, by simp, by simpa [getB] using hlt, by simp [firstId_zero]⟩
    · obtain ⟨i, k, hi, hk, heq⟩ :=
        exists_owning_block bs (id - blockStatesCount b.sizes) hbs (by omega)
      refine ⟨i + 1, k, by simpa using hi, ?_, ?_⟩
      · rw [getB_cons_succ]
        exact hk
      · rw [firstId_cons]
        omega

theorem scanDefault_no_match (defaults : List Nat) :
    ∀ (l : List (List Nat)) (s : Nat) (acc : Option Nat),
    (∀ c ∈ l, c ≠ defaults) → scanDefault defaults l s acc = acc
  | [], _, _, _ => rfl
  | c :: cs, s, acc, h => by
    rw [scanDefault, if_neg (h c (by simp))]
    exact scanDefault_no_match defaults cs (s + 1) acc (fun x hx => h x (by simp [hx]))

theorem scanDefault_unique_match (defaults : List Nat) :
    ∀ (l : List (List Nat)) (s : Nat) (acc : Option Nat) (j : Nat) (hj : j < l.length),
    l.get ⟨j, hj⟩ = defaults →
    (∀ j2 (hj2 : j2 < l.length), j2 ≠ j → l.get ⟨j2, hj2⟩ ≠ defaults) →
    scanDefault defaults l s acc = some (s + j)
  | [], _, _, j, hj, _, _ => by simp at hj
  | c :: cs, s, acc, 0, _, hmatch, hothers => by
    have hc : c = defaults := hmatch
    have hnone : ∀ x ∈ cs, x ≠ defaults := by
      intro x hx
      obtain ⟨j2, hget⟩ := List.mem_iff_get.mp hx
      rw [← hget]
      exact hothers (j2.val + 1) (Nat.succ_lt_succ j2.isLt) (by omega)
    rw [scanDefault, if_pos hc, scanDefault_no_match defaults cs (s + 1) (some s) hnone]
    simp
  | c :: cs, s, acc, j + 1, hj, hmatch, hothers => by
    have hc : c ≠ defaults := hothers 0 (by simp) (by omega)
    rw [scanDefault, if_neg hc]
    have hj2 : j < cs.length := by simpa using hj
    rw [scanDefault_unique_match defaults cs (s + 1) acc j hj2 hmatch
      (fun j3 hj3 hne => hothers (j3 + 1) (by simpa using hj3) (by omega))]
    congr 1
    omega

theorem defaultStateId_some (sizes defaults : List Nat) (first : Nat)
    (hpos : ∀ s ∈ sizes, 0 < s) (hv : validOrdsB sizes defaults = true) :
    defaultStateId sizes defaults first = some (first + encodeOrds sizes defaults) := by
  match sizes, defaults with
  | [], [] => rfl
  | [], _ :: _ => simp [validOrdsB] at hv
  | s :: ss, defaults =>
    have hcomb : combinations_of ((s :: ss).map List.range)
        = (List.range (s :: ss).prod).map (decodeOrds (s :: ss)) := by
      rw [combinations_of, if_neg (by simp)]
      exact cartesian_eq_range_decode (s :: ss) hpos
    have hk : encodeOrds (s :: ss) defaults < (s :: ss).prod := encodeOrds_lt _ _ hv
    have hk2 : encodeOrds (s :: ss) defaults
        < ((List.range (s :: ss).prod).map (decodeOrds (s :: ss))).length := by simpa using hk
    rw [defaultStateId, if_neg (by simp), hcomb]
    apply scanDefault_unique_match defaults _ first none (encodeOrds (s :: ss) defaults) hk2
    · have hget : ((List.range (s :: ss).prod).map (decodeOrds (s :: ss))).get
          ⟨encodeOrds (s :: ss) defaults, hk2⟩
          = decodeOrds (s :: ss) (encodeOrds (s :: ss) defaults) := by simp
      rw [hget, decode_encode _ _ hpos hv]
    · intro j2 hj2 hne
      have hj3 : j2 < (s :: ss).prod := by simpa using hj2
      have hget : ((List.range (s :: ss).prod).map (decodeOrds (s :: ss))).get
          ⟨j2, hj2⟩ = decodeOrds (s :: ss) j2 := by simp
      rw [hget]
      intro heq
      exact hne (by rw [← encode_decode (s :: ss) j2 hpos hj3, heq])

theorem defaultStateId_none (sizes defaults : List Nat) (first : Nat)
    (hpos : ∀ s ∈ sizes, 0 < s) (hlen : defaults.length = sizes.length)
    (hv : validOrdsB sizes defaults = false) :
    defaultStateId sizes defaults first = none := by
  match sizes, defaults with
  | [], [] => simp [validOrdsB] at hv
  | [], _ :: _ => simp at hlen
  | s :: ss, defaults =>
    have hcomb : combinations_of ((s :: ss).map List.range)
        = (List.range (s :: ss).prod).map (decodeOrds (s :: ss)) := by
      rw [combinations_of, if_neg (by simp)]
      exact cartesian_eq_range_decode (s :: ss) hpos
    rw [defaultStateId, if_neg (by simp), hcomb]
    apply scanDefault_no_match
    intro c hc
    obtain ⟨n, _, hc2⟩ := List.mem_map.mp hc
    intro heq
    have : validOrdsB (s :: ss) defaults = true := by
      rw [← heq, ← hc2]
      exact decodeOrds_valid (s :: ss) n hpos
    rw [this] at hv
    exact Bool.true_eq_false.mp hv

/-- One property usage inside a block definition: the field name written
in the block (`property.name`) and the property type name
(`property.property_type`; `"bool"` for a boolean field, the enum type
name such as `"Facing"` otherwise). -/
structure PropUse where
  name : String
  ptypeName : String
deriving DecidableEq

/-- The `property_struct_names_to_names` map (lib.rs 254-257): enum type
name to the domain label declared in the Properties section. -/
def lookupLabel (m : List (String × String)) (key : String) : Option String :=
  (m.find? (fun e => e.1 == key)).map (fun e => e.2)

/-- The base field name before an occurrence suffix (lib.rs 361-364):
the label looked up under the declared field name, falling back to the
declared field name itself when the lookup misses. -/
def baseName (m : List (String × String)) (p : PropUse) : String :=
  (lookupLabel m p.name).getD p.name

/-- Field-name resolution loop of `make_block_states` (lib.rs 333-376):
for each property, an occurrence index is attached only when the same
declared field name appears more than once in the block
(`block.properties_and_defaults.iter().filter(|p| p.name == property.name).count() > 1`),
in which case the suffix is the number of entries of `previous_names`
equal to the declared field name; the base name is pushed onto
`previous_names` before the suffix is appended. -/
def resolveNamesFrom (m : List (String × String)) (allProps : List PropUse) :
    List PropUse → List String → List String
  | [], _ => []
  | p :: rest, previousNames =>
    let propertyName := baseName m p
    let idx : Option Nat :=
      if 1 < (allProps.filter (fun q => q.name == p.name)).length
      then some ((previousNames.filter (fun s => s == p.name)).length)
      else none
    let full := match idx with
      | some k => propertyName ++ "_" ++ toString k
      | none => propertyName
    full :: resolveNamesFrom m allProps rest (previousNames ++ [propertyName])

def resolveNames (m : List (String × String)) (props : List PropUse) : List String :=
  resolveNamesFrom m props props []

theorem resolveNamesFrom_length (m : List (String × String)) (allProps : List PropUse) :
    ∀ (rest : List PropUse) (prev : List String),
    (resolveNamesFrom m allProps rest prev).length = rest.length
  | [], _ => rfl
  | p :: rest, prev => by
    simp [resolveNamesFrom, resolveNamesFrom_length m allProps rest]

theorem resolveNamesFrom_getD (m : List (String × String)) (allProps : List PropUse) :
    ∀ (rest : List PropUse) (prev : List String) (i : Nat), i < rest.length →
    (resolveNamesFrom m allProps rest prev).getD i ""
      = (if 1 < (allProps.filter (fun q => q.name == (rest.getD i ⟨"", ""⟩).name)).length
         then baseName m (rest.getD i ⟨"", ""⟩) ++ "_"
           ++ toString (((prev ++ (rest.take i).map (baseName m)).filter
                (fun s => s == (rest.getD i ⟨"", ""⟩).name)).length)
         else baseName m (rest.getD i ⟨"", ""⟩))
  | [], _, i, hi => by simp at hi
  | p :: rest, prev, 0, _ => by
    simp only [resolveNamesFrom, List.take_zero, List.map_nil, List.append_nil,
      List.getD_cons_zero]
    by_cases hc : 1 < (allProps.filter (fun q => q.name == p.name)).length
    · simp [hc]
    · simp [hc]
  | p :: rest, prev, i + 1, hi => by
    have hi2 : i < rest.length := by simpa using hi
    have hstep : (resolveNamesFrom m allProps (p :: rest) prev).getD (i + 1) ""
        = (resolveNamesFrom m allProps rest (prev ++ [baseName m p])).getD i "" := rfl
    rw [hstep, resolveNamesFrom_getD m allProps rest (prev ++ [baseName m p]) i hi2]
    rw [show ((p :: rest).getD (i + 1) ⟨"", ""⟩) = rest.getD i ⟨"", ""⟩ from rfl]
    rw [show (p :: rest).take (i + 1) = p :: rest.take i from rfl]
    simp

/-- One registry-bridge binding per compiled block, in declaration order,
carrying what the three generated `From<azalea_registry::Block>` impls
bind (lib.rs 524-532, 625-648): the default instance
(`#block_struct_name::default()`, every field at its declared default
ordinal), the precomputed default state id, and the block's full
`first..=last` state range; keyed by the block name the arm patterns
use. `first` is the running `state_id` value when the block is reached. -/
def registryArmsFrom : List BlockSpec → Nat →
    List (String × (List Nat × Option Nat × (Nat × Nat)))
  | [], _ => []
  | b :: bs, first =>
    (b.name, (b.defaults, defaultStateId b.sizes b.defaults first,
      (first, first + blockStatesCount b.sizes - 1)))
      :: registryArmsFrom bs (first + blockStatesCount b.sizes)

def registryArms (blocks : List BlockSpec) :
    List (String × (List Nat × Option Nat × (Nat × Nat))) :=
  registryArmsFrom blocks 0

/-- Runtime semantics of the generated `match block { arms..., _ =>
unreachable!(...) }`: the first arm whose block-name pattern equals the
registry value fires; no arm firing reaches the catch-all, modelled as
`none`. -/
def registryLookup {α : Type} (arms : List (String × α)) (reg : String) : Option α :=
  (arms.find? (fun a => a.1 == reg)).map (fun a => a.2)

theorem registryArmsFrom_map_fst : ∀ (blocks : List BlockSpec) (first : Nat),
    (registryArmsFrom blocks first).map (fun a => a.1) = blocks.map BlockSpec.name
  | [], _ => rfl
  | b :: bs, first => by
    simp [registryArmsFrom, registryArmsFrom_map_fst bs]

theorem registryLookup_not_mem {α : Type} (arms : List (String × α)) (reg : String)
    (h : ∀ a ∈ arms, a.1 ≠ reg) : registryLookup arms reg = none := by
  rw [registryLookup, List.find?_eq_none.mpr (fun a ha => by simp [h a ha])]
  rfl

theorem registryArmsFrom_lookup : ∀ (blocks : List BlockSpec) (first i : Nat),
    i < blocks.length → (blocks.map BlockSpec.name).Nodup →
    registryLookup (registryArmsFrom blocks first) (getB blocks i).name
      = some ((getB blocks i).defaults,
          defaultStateId (getB blocks i).sizes (getB blocks i).defaults
            (first + firstId blocks i),
          (first + firstId blocks i,
            first + firstId blocks i + blockStatesCount (getB blocks i).sizes - 1))
  | [], _, i, hi, _ => by simp at hi
  | b :: bs, first, 0, _, _ => by
    have hgb : getB (b :: bs) 0 = b := rfl
    rw [hgb, firstId_zero, registryArmsFrom, registryLookup]
    simp [List.find?]
  | b :: bs, first, i + 1, hi, hnodup => by
    have hi2 : i < bs.length := by simpa using hi
    rw [getB_cons_succ, firstId_cons]
    have hmem : (getB bs i).name ∈ bs.map BlockSpec.name :=
      List.mem_map_of_mem BlockSpec.name (getB_mem bs i hi2)
    have hne : b.name ≠ (getB bs i).name := by
      intro heq
      rw [List.map_cons, List.nodup_cons] at hnodup
      exact hnodup.1 (heq ▸ hmem)
    rw [registryArmsFrom, registryLookup]
    rw [show List.find? (fun a => a.1 == (getB bs i).name)
        ((b.name, (b.defaults, defaultStateId b.sizes b.defaults first,
          (first, first + blockStatesCount b.sizes - 1)))
          :: registryArmsFrom bs (first + blockStatesCount b.sizes))
        = List.find? (fun a => a.1 == (getB bs i).name)
            (registryArmsFrom bs (first + blockStatesCount b.sizes)) from ?_]
    · have ih := registryArmsFrom_lookup bs (first + blockStatesCount b.sizes) i hi2
        (by rw [List.map_cons, List.nodup_cons] at hnodup; exact hnodup.2)
      rw [registryLookup] at ih
      rw [ih, show first + blockStatesCount b.sizes + firstId bs i
          = first + (blockStatesCount b.sizes + firstId bs i) from by omega]
    · rw [List.find?_cons_of_neg]
      simp [hne]

theorem registryArmsFrom_filter_eq : ∀ (blocks : List BlockSpec) (first i : Nat),
    i < blocks.length → (blocks.map BlockSpec.name).Nodup →
    ((registryArmsFrom blocks first).filter
      (fun a => a.1 == (getB blocks i).name)).length = 1
  | [], _, i, hi, _ => by simp at hi
  | b :: bs, first, 0, _, hnodup => by
    have hgb : getB (b :: bs) 0 = b := rfl
    rw [List.map_cons, List.nodup_cons] at hnodup
    have hnone : ((registryArmsFrom bs (first + blockStatesCount b.sizes)).filter
        (fun a => a.1 == b.name)) = [] := by
      rw [List.filter_eq_nil_iff]
      intro a ha
      have : a.1 ∈ bs.map BlockSpec.name := by
        rw [← registryArmsFrom_map_fst bs (first + blockStatesCount b.sizes)]
        exact List.mem_map_of_mem _ ha
      simp only [beq_iff_eq]
      intro heq
      exact hnodup.1 (heq ▸ this)
    rw [hgb, registryArmsFrom, List.filter_cons]
    simp [hnone]
  | b :: bs, first, i + 1, hi, hnodup => by
    have hi2 : i < bs.length := by simpa using hi
    rw [List.map_cons, List.nodup_cons] at hnodup
    have hmem : (getB bs i).name ∈ bs.map BlockSpec.name :=
      List.mem_map_of_mem BlockSpec.name (getB_mem bs i hi2)
    have hne : b.name ≠ (getB bs i).name := fun heq => hnodup.1 (heq ▸ hmem)
    rw [getB_cons_succ, registryArmsFrom, List.filter_cons]
    have ih := registryArmsFrom_filter_eq bs (first + blockStatesCount b.sizes) i hi2 hnodup.2
    simp only [beq_iff_eq]
    rw [if_neg (by simpa using hne)]
    exact ih

theorem getD_mem_of_lt {α : Type} (l : List α) (i : Nat) (d : α) (hi : i < l.length) :
    l.getD i d ∈ l := by
  rw [List.getD_eq_getElem?_getD, List.getElem?_eq_getElem hi]
  exact List.getElem_mem hi

/-- Two compiled blocks used as concrete inputs: `grass_block` with the
single boolean field `snowy` defaulting to `false` (ordinal 1), and
`acacia_button` with fields `face` (size 3, default `Wall` ordinal 1),
`facing` (size 4, default `North` ordinal 0), `powered` (size 2, default
`false` ordinal 1). -/
def demoBlocks : List BlockSpec :=
  [⟨"GrassBlock", [2], [1]⟩, ⟨"AcaciaButton", [3, 4, 2], [1, 0, 1]⟩]

/-- C1: the generated encoder (`as_block_state`) and decoder
(`From<BlockState> for Box<dyn Block>`) are exact inverses: decoding any
state id in `[0, max_state]` and encoding the resulting instance yields
the id back, and encoding any reachable instance of any compiled block
and decoding the resulting id yields the same instance. -/
theorem state_id_bijection (blocks : List BlockSpec)
    (hpos : ∀ b ∈ blocks, ∀ s ∈ b.sizes, 0 < s) (hne : blocks ≠ []) :
    (∀ id, id ≤ maxState blocks →
      ∃ i ords, decodeState blocks id = some (i, ords)
        ∧ encodeState blocks i ords = some id)
    ∧ (∀ i ords, i < blocks.length → validOrdsB (getB blocks i).sizes ords = true →
      ∃ id, encodeState blocks i ords = some id
        ∧ decodeState blocks id = some (i, ords)) := by
  have htot : 0 < totalStates blocks := totalStates_pos blocks hne hpos
  constructor
  · intro id hid
    have hid2 : id < totalStates blocks := by
      rw [maxState] at hid
      omega
    obtain ⟨i, k, hi, hk, heq⟩ := exists_owning_block blocks id hpos hid2
    have hbpos : ∀ s ∈ (getB blocks i).sizes, 0 < s := hpos _ (getB_mem blocks i hi)
    have hdec : decodeState blocks id = some (i, decodeOrds (getB blocks i).sizes k) := by
      have h0 := decodeStateFrom_at blocks 0 0 i k hpos hi hk
      rw [decodeState, heq]
      simpa using h0
    refine ⟨i, decodeOrds (getB blocks i).sizes k, hdec, ?_⟩
    rw [encodeState, as_block_state_eq _ _ _ hbpos (decodeOrds_valid _ _ hbpos),
      encode_decode _ k hbpos (by rwa [← blockStatesCount_eq_prod _ hbpos]), heq]
  · intro i ords hi hv
    have hbpos : ∀ s ∈ (getB blocks i).sizes, 0 < s := hpos _ (getB_mem blocks i hi)
    have hk : encodeOrds (getB blocks i).sizes ords
        < blockStatesCount (getB blocks i).sizes := by
      rw [blockStatesCount_eq_prod _ hbpos]
      exact encodeOrds_lt _ _ hv
    refine ⟨firstId blocks i + encodeOrds (getB blocks i).sizes ords, ?_, ?_⟩
    · exact as_block_state_eq _ _ _ hbpos hv
    · have h0 := decodeStateFrom_at blocks 0 0 i
        (encodeOrds (getB blocks i).sizes ords) hpos hi hk
      rw [decode_encode _ _ hbpos hv] at h0
      rw [decodeState]
      simpa using h0

theorem state_id_bijection_witness :
    (∀ id, id ≤ maxState demoBlocks →
      ∃ i ords, decodeState demoBlocks id = some (i, ords)
        ∧ encodeState demoBlocks i ords = some id)
    ∧ (∀ i ords, i < demoBlocks.length →
        validOrdsB (getB demoBlocks i).sizes ords = true →
      ∃ id, encodeState demoBlocks i ords = some id
        ∧ decodeState demoBlocks id = some (i, ords)) :=
  state_id_bijection demoBlocks (by decide) (by decide)

/-- C2: ranges are assigned to blocks in declaration order from a single
counter starting at 0: every block's range size is the product of its
field domain sizes (1 for a field-less block, the empty product), the
first block's range starts at id 0, each block's first id is the
previous block's last id plus one, and the union of the ranges is
exactly `[0, max_state]`. -/
theorem range_layout (blocks : List BlockSpec)
    (hpos : ∀ b ∈ blocks, ∀ s ∈ b.sizes, 0 < s) (hne : blocks ≠ []) :
    firstId blocks 0 = 0
    ∧ (∀ i, i < blocks.length →
        blockStatesCount (getB blocks i).sizes = (getB blocks i).sizes.prod)
    ∧ (∀ i, i + 1 < blocks.length → firstId blocks (i + 1) = lastId blocks i + 1)
    ∧ (∀ id, (∃ i, i < blocks.length ∧ firstId blocks i ≤ id ∧ id ≤ lastId blocks i)
        ↔ id ≤ maxState blocks) := by
  have htot : 0 < totalStates blocks := totalStates_pos blocks hne hpos
  refine ⟨rfl, ?_, ?_, ?_⟩
  · intro i hi
    exact blockStatesCount_eq_prod _ (hpos _ (getB_mem blocks i hi))
  · intro i hi
    have hcnt : 0 < blockStatesCount (getB blocks i).sizes :=
      blockStatesCount_pos _ (hpos _ (getB_mem blocks i (by omega)))
    rw [firstId_succ blocks i (by omega), lastId]
    omega
  · intro id
    constructor
    · rintro ⟨i, hi, h1, h2⟩
      have hcnt : 0 < blockStatesCount (getB blocks i).sizes :=
        blockStatesCount_pos _ (hpos _ (getB_mem blocks i hi))
      have hle : firstId blocks (i + 1) ≤ totalStates blocks := firstId_le_total blocks (i + 1)
      rw [firstId_succ blocks i hi] at hle
      rw [lastId] at h2
      rw [maxState]
      omega
    · intro hid
      have hid2 : id < totalStates blocks := by
        rw [maxState] at hid
        omega
      obtain ⟨i, k, hi, hk, heq⟩ := exists_owning_block blocks id hpos hid2
      refine ⟨i, hi, by omega, ?_⟩
      rw [lastId]
      omega

theorem range_layout_witness :
    firstId demoBlocks 0 = 0
    ∧ (∀ i, i < demoBlocks.length →
        blockStatesCount (getB demoBlocks i).sizes = (getB demoBlocks i).sizes.prod)
    ∧ (∀ i, i + 1 < demoBlocks.length →
        firstId demoBlocks (i + 1) = lastId demoBlocks i + 1)
    ∧ (∀ id, (∃ i, i < demoBlocks.length
          ∧ firstId demoBlocks i ≤ id ∧ id ≤ lastId demoBlocks i)
        ↔ id ≤ maxState demoBlocks) :=
  range_layout demoBlocks (by decide) (by decide)

/-- C3 counterexample: for fields powered (size 2), facing (size 4),
face (size 3) declared in that order — the order the claim itself
specifies — the positional weights are 12, 3, 1 (each field's weight is
the product of the sizes of the fields declared after it), not 1 for
powered, 2 for facing and 8 for face as the claim asserts; those weights
belong to the declaration order face, facing, powered that the generated
acacia_button decoder actually uses. -/
theorem mixed_radix_weights_cex :
    fieldWeight [2, 4, 3] 0 = 12 ∧ fieldWeight [2, 4, 3] 1 = 3 ∧ fieldWeight [2, 4, 3] 2 = 1
    ∧ ¬ (fieldWeight [2, 4, 3] 0 = 1 ∧ fieldWeight [2, 4, 3] 1 = 2
        ∧ fieldWeight [2, 4, 3] 2 = 8) := by decide

/-- C3 (amended): the encoding is mixed-radix with the last-declared
field least significant — every field's weight is the product of the
domain sizes of the fields declared after it, the local offset is the
sum of ordinal times weight, and the global id adds the block's first
id. For acacia_button the declared field order is face (size 3), facing
(size 4), powered (size 2): the range size is 24 and the weights are 8
for face, 2 for facing and 1 for powered, matched exactly by encoding
and decoding on all 24 combinations. -/
theorem mixed_radix_weights (sizes ords : List Nat) (first : Nat)
    (hpos : ∀ s ∈ sizes, 0 < s) (hv : validOrdsB sizes ords = true) :
    encodeOrds sizes ords
      = ((List.range sizes.length).map (fun i => ords.getD i 0 * fieldWeight sizes i)).sum
    ∧ as_block_state sizes first ords = some (first + encodeOrds sizes ords)
    ∧ (fieldWeight [3, 4, 2] 0 = 8 ∧ fieldWeight [3, 4, 2] 1 = 2
        ∧ fieldWeight [3, 4, 2] 2 = 1)
    ∧ ([3, 4, 2] : List Nat).prod = 24
    ∧ (∀ a, a < 3 → ∀ b, b < 4 → ∀ c, c < 2 →
        encodeOrds [3, 4, 2] [a, b, c] = a * 8 + b * 2 + c
        ∧ decodeOrds [3, 4, 2] (a * 8 + b * 2 + c) = [a, b, c]) :=
  ⟨encodeOrds_eq_weighted_sum sizes ords, as_block_state_eq sizes first ords hpos hv,
    by decide, by decide, by decide⟩

theorem mixed_radix_weights_witness :
    encodeOrds [3, 4, 2] [1, 0, 1]
      = ((List.range ([3, 4, 2] : List Nat).length).map
          (fun i => ([1, 0, 1] : List Nat).getD i 0 * fieldWeight [3, 4, 2] i)).sum
    ∧ as_block_state [3, 4, 2] 7035 [1, 0, 1]
        = some (7035 + encodeOrds [3, 4, 2] [1, 0, 1])
    ∧ (fieldWeight [3, 4, 2] 0 = 8 ∧ fieldWeight [3, 4, 2] 1 = 2
        ∧ fieldWeight [3, 4, 2] 2 = 1)
    ∧ ([3, 4, 2] : List Nat).prod = 24
    ∧ (∀ a, a < 3 → ∀ b, b < 4 → ∀ c, c < 2 →
        encodeOrds [3, 4, 2] [a, b, c] = a * 8 + b * 2 + c
        ∧ decodeOrds [3, 4, 2] (a * 8 + b * 2 + c) = [a, b, c]) :=
  mixed_radix_weights [3, 4, 2] [1, 0, 1] 7035 (by decide) (by decide)

/-- C4: when the declared defaults name a reachable combination, exactly
one local id inside the block's range decodes to the all-defaults
instance, that id is the one the scan records as the default state id,
and decoding it yields the defaults; when the defaults match no
combination, the computation fails with the fatal diagnostic that
reports the block name and the attempted default combination. -/
theorem default_state_correct (sizes defaults : List Nat) (first : Nat) (blockName : String)
    (hpos : ∀ s ∈ sizes, 0 < s) (hlen : defaults.length = sizes.length) :
    (validOrdsB sizes defaults = true →
      defaultStateId sizes defaults first = some (first + encodeOrds sizes defaults)
      ∧ decodeOrds sizes (encodeOrds sizes defaults) = defaults
      ∧ ∀ k, k < sizes.prod → (decodeOrds sizes k = defaults ↔ k = encodeOrds sizes defaults))
    ∧ (validOrdsB sizes defaults = false →
      defaultStateIdE blockName sizes defaults first
        = Except.error ("Couldn\x27t get default state id for " ++ blockName
            ++ ", combinations=" ++ toString (sizes.map List.range)
            ++ ", defaults=" ++ toString defaults)) := by
  constructor
  · intro hv
    refine ⟨defaultStateId_some sizes defaults first hpos hv,
      decode_encode sizes defaults hpos hv, ?_⟩
    intro k hk
    constructor
    · intro heq
      rw [← encode_decode sizes k hpos hk, heq]
    · intro heq
      rw [heq]
      exact decode_encode sizes defaults hpos hv
  · intro hv
    rw [defaultStateIdE, defaultStateId_none sizes defaults first hpos hlen hv]

theorem default_state_correct_witness :
    ((validOrdsB [3, 4, 2] [1, 0, 1] = true →
      defaultStateId [3, 4, 2] [1, 0, 1] 7035
          = some (7035 + encodeOrds [3, 4, 2] [1, 0, 1])
      ∧ decodeOrds [3, 4, 2] (encodeOrds [3, 4, 2] [1, 0, 1]) = [1, 0, 1]
      ∧ ∀ k, k < ([3, 4, 2] : List Nat).prod →
          (decodeOrds [3, 4, 2] k = [1, 0, 1] ↔ k = encodeOrds [3, 4, 2] [1, 0, 1]))
    ∧ (validOrdsB [3, 4, 2] [1, 0, 1] = false →
      defaultStateIdE "AcaciaButton" [3, 4, 2] [1, 0, 1] 7035
        = Except.error ("Couldn\x27t get default state id for " ++ "AcaciaButton"
            ++ ", combinations=" ++ toString (([3, 4, 2] : List Nat).map List.range)
            ++ ", defaults=" ++ toString ([1, 0, 1] : List Nat))))
    ∧ validOrdsB [3, 4, 2] [9, 0, 1] = false
    ∧ defaultStateId [3, 4, 2] [9, 0, 1] 7035 = none :=
  ⟨default_state_correct [3, 4, 2] [1, 0, 1] 7035 "AcaciaButton" (by decide) (by decide),
    by decide, by decide⟩

/-- C5: boolean fields have fixed size 2, ordinal 0 decoding to `true`
and ordinal 1 to `false` — the generated conversion is
`(b / division) % 2 == 0` — so for a block whose only field is a boolean
(grass_block's `snowy`, default `false`), the range has size 2, its
first id decodes the field to `true`, the next id to `false`, and the
default state id is `first + 1`. -/
theorem boolean_polarity (blocks : List BlockSpec) (i : Nat)
    (hpos : ∀ b ∈ blocks, ∀ s ∈ b.sizes, 0 < s) (hi : i < blocks.length)
    (hsz : (getB blocks i).sizes = [2]) :
    blockStatesCount (getB blocks i).sizes = 2
    ∧ boolVariants.length = 2
    ∧ decodeState blocks (firstId blocks i) = some (i, [boolOrdinal true])
    ∧ decodeBool 1 0 = true
    ∧ decodeState blocks (firstId blocks i + 1) = some (i, [boolOrdinal false])
    ∧ decodeBool 1 1 = false
    ∧ defaultStateId (getB blocks i).sizes [boolOrdinal false] (firstId blocks i)
        = some (firstId blocks i + 1) := by
  refine ⟨by rw [hsz]; decide, by decide, ?_, by decide, ?_, by decide, ?_⟩
  · have h0 := decodeStateFrom_at blocks 0 0 i 0 hpos hi (by rw [hsz]; decide)
    rw [hsz] at h0
    rw [(by decide : decodeOrds [2] 0 = [boolOrdinal true])] at h0
    rw [decodeState]
    simpa using h0
  · have h0 := decodeStateFrom_at blocks 0 0 i 1 hpos hi (by rw [hsz]; decide)
    rw [hsz] at h0
    rw [(by decide : decodeOrds [2] 1 = [boolOrdinal false])] at h0
    rw [decodeState]
    simpa using h0
  · rw [hsz]
    have h := defaultStateId_some [2] [boolOrdinal false] (firstId blocks i)
      (by decide) (by decide)
    rw [(by decide : encodeOrds [2] [boolOrdinal false] = 1)] at h
    exact h

theorem boolean_polarity_witness :
    blockStatesCount (getB demoBlocks 0).sizes = 2
    ∧ boolVariants.length = 2
    ∧ decodeState demoBlocks (firstId demoBlocks 0) = some (0, [boolOrdinal true])
    ∧ decodeBool 1 0 = true
    ∧ decodeState demoBlocks (firstId demoBlocks 0 + 1) = some (0, [boolOrdinal false])
    ∧ decodeBool 1 1 = false
    ∧ defaultStateId (getB demoBlocks 0).sizes [boolOrdinal false] (firstId demoBlocks 0)
        = some (firstId demoBlocks 0 + 1) :=
  boolean_polarity demoBlocks 0 (by decide) (by decide) (by decide)

/-- C8: decoding an out-of-range state id reaches the generated
`panic!("Invalid block state")` arm — modelled as `none`, never a
silently substituted default instance — and for every id in
`[0, max_state]` that arm is unreachable: the decoder returns an owning
block's instance. -/
theorem out_of_range_decode (blocks : List BlockSpec)
    (hpos : ∀ b ∈ blocks, ∀ s ∈ b.sizes, 0 < s) (hne : blocks ≠ []) :
    (∀ id, maxState blocks < id → decodeState blocks id = none)
    ∧ (∀ id, id ≤ maxState blocks → (decodeState blocks id).isSome = true) := by
  have htot : 0 < totalStates blocks := totalStates_pos blocks hne hpos
  constructor
  · intro id hid
    rw [decodeState]
    apply decodeStateFrom_none blocks 0 0 id hpos
    rw [maxState] at hid
    omega
  · intro id hid
    have hid2 : id < totalStates blocks := by
      rw [maxState] at hid
      omega
    obtain ⟨i, k, hi, hk, heq⟩ := exists_owning_block blocks id hpos hid2
    have h0 := decodeStateFrom_at blocks 0 0 i k hpos hi hk
    rw [decodeState, heq, show firstId blocks i + k = 0 + firstId blocks i + k from by omega,
      h0]
    rfl

theorem out_of_range_decode_witness :
    (∀ id, maxState demoBlocks < id → decodeState demoBlocks id = none)
    ∧ (∀ id, id ≤ maxState demoBlocks → (decodeState demoBlocks id).isSome = true) :=
  out_of_range_decode demoBlocks (by decide) (by decide)

/-- C9: every field ordinal the decoder computes as
`(b / division) % variant_count` is strictly below the field's domain
size, so the generated `From<u32>` conversion for the field's property
enum resolves it through a numbered arm and never reaches the
`panic!("Invalid property value")` catch-all. -/
theorem decoded_ordinal_within_domain (sizes : List Nat) (b : Nat)
    (hpos : ∀ s ∈ sizes, 0 < s) :
    ∀ i, i < sizes.length →
      (decodeOrds sizes b).getD i 0 < sizes.getD i 0
      ∧ enumFromU32 (sizes.getD i 0) ((b / fieldWeight sizes i) % sizes.getD i 0)
          = some ((decodeOrds sizes b).getD i 0) := by
  intro i hi
  have hsize : 0 < sizes.getD i 0 := hpos _ (getD_mem_of_lt sizes i 0 hi)
  have hlt : (decodeOrds sizes b).getD i 0 < sizes.getD i 0 := by
    rw [decodeOrds_getD sizes b i hi]
    exact Nat.mod_lt _ hsize
  refine ⟨hlt, ?_⟩
  rw [decodeOrds_getD sizes b i hi, enumFromU32, if_pos (Nat.mod_lt _ hsize)]

theorem decoded_ordinal_within_domain_witness :
    (0 : Nat) < ([3, 4, 2] : List Nat).length
    ∧ ((decodeOrds [3, 4, 2] 13).getD 0 0 < ([3, 4, 2] : List Nat).getD 0 0
      ∧ enumFromU32 (([3, 4, 2] : List Nat).getD 0 0)
          ((13 / fieldWeight [3, 4, 2] 0) % ([3, 4, 2] : List Nat).getD 0 0)
          = some ((decodeOrds [3, 4, 2] 13).getD 0 0)) :=
  ⟨by decide, decoded_ordinal_within_domain [3, 4, 2] 13 (by decide) 0 (by decide)⟩

/-- C6 counterexample: a block using the domain `Facing` (declared label
`facing`) in two fields named `north` and `south` — parsed as
`north: Facing::North, south: Facing::South` — gets the generated field
names `north` and `south`, with no `_0`/`_1` suffix and without the
domain label, although the domain is used by more than one field: the
macro keys disambiguation on the declared field name
(`filter(|p| p.name == property.name)`), not on the domain. -/
theorem field_name_disambiguation_cex :
    ((([⟨"north", "Facing"⟩, ⟨"south", "Facing"⟩] : List PropUse).filter
        (fun q => q.ptypeName == "Facing")).length = 2)
    ∧ resolveNames [("Facing", "facing")] [⟨"north", "Facing"⟩, ⟨"south", "Facing"⟩]
        = ["north", "south"]
    ∧ resolveNames [("Facing", "facing")] [⟨"north", "Facing"⟩, ⟨"south", "Facing"⟩]
        ≠ ["facing_0", "facing_1"] := by decide

/-- C6 (amended): disambiguation is keyed on the declared field name,
not the domain: the generated name of field `i` is its base name (the
domain label found under the declared field name in the type-to-label
map, else the declared field name itself), suffixed with
`_k` exactly when the same declared field name is used by more than one
field of the block, where `k` counts the earlier fields whose base name
equals this field's declared name; fields keep declaration order, and a
block repeating one field name three times gets `_0`, `_1`, `_2`. -/
theorem field_name_disambiguation (m : List (String × String)) (props : List PropUse)
    (i : Nat) (hi : i < props.length) :
    (resolveNames m props).length = props.length
    ∧ (resolveNames m props).getD i ""
        = (if 1 < (props.filter (fun q => q.name == (props.getD i ⟨"", ""⟩).name)).length
           then baseName m (props.getD i ⟨"", ""⟩) ++ "_"
             ++ toString (((props.take i).map (baseName m)).filter
                  (fun s => s == (props.getD i ⟨"", ""⟩).name)).length
           else baseName m (props.getD i ⟨"", ""⟩))
    ∧ resolveNames [] [⟨"has_bottle", "bool"⟩, ⟨"has_bottle", "bool"⟩, ⟨"has_bottle", "bool"⟩]
        = ["has_bottle_0", "has_bottle_1", "has_bottle_2"] := by
  refine ⟨resolveNamesFrom_length m props props [], ?_, by decide⟩
  have h := resolveNamesFrom_getD m props props [] i hi
  rw [resolveNames, h]
  simp

theorem field_name_disambiguation_witness :
    (resolveNames [("Facing", "facing")]
        [⟨"north", "Facing"⟩, ⟨"south", "Facing"⟩]).length
      = ([⟨"north", "Facing"⟩, ⟨"south", "Facing"⟩] : List PropUse).length
    ∧ (resolveNames [("Facing", "facing")]
          [⟨"north", "Facing"⟩, ⟨"south", "Facing"⟩]).getD 1 ""
        = (if 1 < (([⟨"north", "Facing"⟩, ⟨"south", "Facing"⟩] : List PropUse).filter
              (fun q => q.name == (([⟨"north", "Facing"⟩, ⟨"south", "Facing"⟩] :
                List PropUse).getD 1 ⟨"", ""⟩).name)).length
           then baseName [("Facing", "facing")]
                (([⟨"north", "Facing"⟩, ⟨"south", "Facing"⟩] : List PropUse).getD 1 ⟨"", ""⟩)
              ++ "_"
              ++ toString (((([⟨"north", "Facing"⟩, ⟨"south", "Facing"⟩] :
                    List PropUse).take 1).map (baseName [("Facing", "facing")])).filter
                  (fun s => s == (([⟨"north", "Facing"⟩, ⟨"south", "Facing"⟩] :
                    List PropUse).getD 1 ⟨"", ""⟩).name)).length
           else baseName [("Facing", "facing")]
              (([⟨"north", "Facing"⟩, ⟨"south", "Facing"⟩] : List PropUse).getD 1 ⟨"", ""⟩))
    ∧ resolveNames [] [⟨"has_bottle", "bool"⟩, ⟨"has_bottle", "bool"⟩, ⟨"has_bottle", "bool"⟩]
        = ["has_bottle_0", "has_bottle_1", "has_bottle_2"] :=
  field_name_disambiguation [("Facing", "facing")]
    [⟨"north", "Facing"⟩, ⟨"south", "Facing"⟩] 1 (by decide)

/-- C7 counterexample: with a single compiled block GrassBlock, the
registry value Chest has no binding, yet nothing fails at build time:
the generated conversion compiles and, when applied, falls through every
arm to the `_ => unreachable!` catch-all — a runtime panic (modelled as
`none`), contradicting the claim that a missing binding is detected at
build time. -/
theorem registry_bridge_cex :
    registryLookup (registryArms [⟨"GrassBlock", [2], [1]⟩]) "Chest" = none := by decide

/-- C7 (amended): every compiled block contributes exactly one binding
arm — carrying its default instance, its precomputed default state id
and its full first-to-last range — and a registry value matching no
compiled block is caught only at runtime by the explicitly reported
`unreachable!` arm (modelled as `none`), never silently bound to a
default; the bridge is not verified exhaustive at build time. -/
theorem registry_bridge (blocks : List BlockSpec)
    (hnodup : (blocks.map BlockSpec.name).Nodup) :
    (∀ i, i < blocks.length →
      registryLookup (registryArms blocks) (getB blocks i).name
        = some ((getB blocks i).defaults,
            defaultStateId (getB blocks i).sizes (getB blocks i).defaults (firstId blocks i),
            (firstId blocks i, lastId blocks i))
      ∧ ((registryArms blocks).filter (fun a => a.1 == (getB blocks i).name)).length = 1)
    ∧ (∀ reg, reg ∉ blocks.map BlockSpec.name →
      registryLookup (registryArms blocks) reg = none) := by
  constructor
  · intro i hi
    constructor
    · have h := registryArmsFrom_lookup blocks 0 i hi hnodup
      rw [registryArms]
      simpa [lastId] using h
    · exact registryArmsFrom_filter_eq blocks 0 i hi hnodup
  · intro reg hreg
    apply registryLookup_not_mem
    intro a ha heq
    apply hreg
    rw [← heq, ← registryArmsFrom_map_fst blocks 0]
    exact List.mem_map_of_mem _ ha

theorem registry_bridge_witness :
    (∀ i, i < demoBlocks.length →
      registryLookup (registryArms demoBlocks) (getB demoBlocks i).name
        = some ((getB demoBlocks i).defaults,
            defaultStateId (getB demoBlocks i).sizes (getB demoBlocks i).defaults
              (firstId demoBlocks i),
            (firstId demoBlocks i, lastId demoBlocks i))
      ∧ ((registryArms demoBlocks).filter
          (fun a => a.1 == (getB demoBlocks i).name)).length = 1)
    ∧ (∀ reg, reg ∉ demoBlocks.map BlockSpec.name →
      registryLookup (registryArms demoBlocks) reg = none) :=
  registry_bridge demoBlocks (by decide)

/-- C10: the two registry bindings agree: encoding the default
descriptor instance bound by `From<azalea_registry::Block> for
Box<dyn Block>` (the generated `Default` impl, every field at its
declared default ordinal) through `as_block_state` yields exactly the
default state id bound by `From<azalea_registry::Block> for BlockState`
(the `default_state_id` the macro records while scanning). -/
theorem registry_default_agreement (blocks : List BlockSpec) (i : Nat)
    (hpos : ∀ b ∈ blocks, ∀ s ∈ b.sizes, 0 < s) (hi : i < blocks.length)
    (hv : validOrdsB (getB blocks i).sizes (getB blocks i).defaults = true) :
    as_block_state (getB blocks i).sizes (firstId blocks i) (getB blocks i).defaults
      = defaultStateId (getB blocks i).sizes (getB blocks i).defaults (firstId blocks i) := by
  have hbpos : ∀ s ∈ (getB blocks i).sizes, 0 < s := hpos _ (getB_mem blocks i hi)
  rw [as_block_state_eq _ _ _ hbpos hv, defaultStateId_some _ _ _ hbpos hv]

theorem registry_default_agreement_witness :
    as_block_state (getB demoBlocks 1).sizes (firstId demoBlocks 1)
        (getB demoBlocks 1).defaults
      = defaultStateId (getB demoBlocks 1).sizes (getB demoBlocks 1).defaults
          (firstId demoBlocks 1) :=
  registry_default_agreement demoBlocks 1 (by decide) (by decide) (by decide)

end Azalea
